import Mathlib

/-!
# Verification of the AgentNet relay-client core (betta-lab/agentnet-openclaw)

A shallow embedding, in Lean 4, of the pure core of the Go sources:

* `internal/client/client.go` — canonical JSON serialization (`canonicalJSON`),
  message signing (`sign`), the PoW solver (`solvePoW` / `verifyPoW`) and the
  response-demultiplexer (`recvTyped`);
* `internal/daemon/daemon.go` — the message ring buffer (`collectMessages`),
  the `/messages` drain handler (`handleMessages`), the HTTP method/auth
  prefixes of the POST handlers, and `handleLeaveRoom`;
* `internal/keystore/keystore.go` — `LoadOrCreate` on an existing key file.

Go byte slices are modelled as `List Nat` (each element a byte value),
Go strings as Lean `String` (UTF-8 encoding made explicit where hashing
needs bytes), Go maps as association lists with distinct keys, and
fallible / panicking code as `Except` values.
-/

/-! ## Byte-order comparison of strings

Go's `sort.Strings` sorts by byte-wise (UTF-8) lexicographic order, which
coincides with code-point lexicographic order. -/

def charsLe : List Char → List Char → Bool
  | [], _ => true
  | _ :: _, [] => false
  | a :: as, b :: bs =>
    if a.toNat < b.toNat then true
    else if b.toNat < a.toNat then false
    else charsLe as bs

def strLe (a b : String) : Bool := charsLe a.data b.data

theorem char_toNat_inj {a b : Char} (h : a.toNat = b.toNat) : a = b :=
  Char.ext (UInt32.ext h)

theorem charsLe_total : ∀ a b, charsLe a b = true ∨ charsLe b a = true := by
  intro a
  induction a with
  | nil => intro b; left; rfl
  | cons x xs ih =>
    intro b
    cases b with
    | nil => right; rfl
    | cons y ys =>
      simp only [charsLe]
      rcases Nat.lt_trichotomy x.toNat y.toNat with h | h | h
      · left; simp [h]
      · have h1 : ¬ x.toNat < y.toNat := by omega
        have h2 : ¬ y.toNat < x.toNat := by omega
        rcases ih ys with h3 | h3 <;> simp [h1, h2, h3]
      · right; simp [h, Nat.lt_asymm h]

theorem charsLe_antisymm : ∀ a b, charsLe a b = true → charsLe b a = true → a = b := by
  intro a
  induction a with
  | nil =>
    intro b h1 h2
    cases b with
    | nil => rfl
    | cons y ys => simp [charsLe] at h2
  | cons x xs ih =>
    intro b h1 h2
    cases b with
    | nil => simp [charsLe] at h1
    | cons y ys =>
      simp only [charsLe] at h1 h2
      rcases Nat.lt_trichotomy x.toNat y.toNat with h | h | h
      · simp [h, Nat.lt_asymm h] at h2
      · have hx : ¬ x.toNat < y.toNat := by omega
        have hy : ¬ y.toNat < x.toNat := by omega
        simp only [hx, hy, if_neg, if_false] at h1 h2
        have hxy : x = y := char_toNat_inj (by omega)
        rw [hxy, ih ys h1 h2]
      · simp [h, Nat.lt_asymm h] at h1

theorem charsLe_trans : ∀ a b c, charsLe a b = true → charsLe b c = true →
    charsLe a c = true := by
  intro a
  induction a with
  | nil => intro b c _ _; rfl
  | cons x xs ih =>
    intro b c h1 h2
    cases b with
    | nil => simp [charsLe] at h1
    | cons y ys =>
      cases c with
      | nil => simp [charsLe] at h2
      | cons z zs =>
        simp only [charsLe] at h1 h2 ⊢
        by_cases hyx : y.toNat < x.toNat
        · simp [Nat.lt_asymm hyx, hyx] at h1
        by_cases hzy : z.toNat < y.toNat
        · simp [Nat.lt_asymm hzy, hzy] at h2
        by_cases hxz : x.toNat < z.toNat
        · simp [hxz]
        · have hzx : ¬ z.toNat < x.toNat := by omega
          have hxy : ¬ x.toNat < y.toNat := by omega
          have hyz : ¬ y.toNat < z.toNat := by omega
          simp only [hxz, hzx, if_false] at *
          simp only [hxy, hyx, if_false] at h1
          simp only [hyz, hzy, if_false] at h2
          exact ih ys zs h1 h2

/-- The ordering relation used to model Go's `sort.Strings`. -/
def StrLeR (a b : String) : Prop := strLe a b = true

instance : DecidableRel StrLeR := fun a b => by
  unfold StrLeR; infer_instance

instance : IsTotal String StrLeR :=
  ⟨fun a b => charsLe_total a.data b.data⟩

instance : IsTrans String StrLeR :=
  ⟨fun a b c => charsLe_trans a.data b.data c.data⟩

instance : IsAntisymm String StrLeR :=
  ⟨fun a b h1 h2 => String.ext (charsLe_antisymm a.data b.data h1 h2)⟩

/-- Embedding of Go `sort.Strings` (ascending byte order). -/
def sortStrings (l : List String) : List String := l.insertionSort StrLeR

/-! ## JSON values and Go's `canonicalJSON` (client.go)

`JValue` models the Go dynamic value `interface{}` as produced by
`encoding/json`: `nil`, `bool`, numbers, `string`, `[]interface{}` and
`map[string]interface{}`.  A Go map is an association list whose keys are
distinct (`wfKeys`); iteration order is arbitrary, which is why
`canonicalJSON` sorts the keys. -/

inductive JValue where
  | null : JValue
  | bool (b : Bool) : JValue
  | num (n : Int) : JValue
  | str (s : String) : JValue
  | arr (elems : List JValue) : JValue
  | obj (fields : List (String × JValue)) : JValue

/-- Go map indexing `val[k]` (total on the maps that arise: every key that is
looked up comes from the map itself; absent keys give the zero value). -/
def lookupJ : List (String × JValue) → String → JValue
  | [], _ => .null
  | (k', v) :: rest, k => if k' = k then v else lookupJ rest k

/-- Decimal digits, lowest-level helper for Go's integer formatting. -/
def digitCh (d : Nat) : Char := Char.ofNat (48 + d)

def natDecimalAux : Nat → Nat → List Char
  | 0, _ => []
  | fuel + 1, n =>
    if n < 10 then [digitCh n]
    else natDecimalAux fuel (n / 10) ++ [digitCh (n % 10)]

/-- Decimal representation of a natural number (Go `fmt.Sprintf("%d", n)` /
`strconv` formatting). -/
def natDecimal (n : Nat) : List Char := natDecimalAux (n + 1) n

/-- Decimal representation of an integer (Go `encoding/json` integer output). -/
def intDecimal : Int → List Char
  | .ofNat m => natDecimal m
  | .negSucc m => '-' :: natDecimal (m + 1)

/-- Lowercase hex digit (Go `encoding/json` uses lowercase `\u00xx` escapes). -/
def hexDigit (d : Nat) : Char :=
  if d < 10 then Char.ofNat (48 + d) else Char.ofNat (87 + d)

/-- Escape one character the way Go's `encoding/json` string encoder does
(HTML escaping on, as in `json.Marshal` used by `canonicalJSON`). -/
def escapeChar (c : Char) : List Char :=
  if c = '"' then ['\\', '"']
  else if c = '\\' then ['\\', '\\']
  else if c = '\n' then ['\\', 'n']
  else if c = '\r' then ['\\', 'r']
  else if c = '\t' then ['\\', 't']
  else if c.toNat < 0x20 ∨ c = '<' ∨ c = '>' ∨ c = '&' then
    ['\\', 'u', '0', '0', hexDigit (c.toNat / 16), hexDigit (c.toNat % 16)]
  else if c.toNat = 0x2028 ∨ c.toNat = 0x2029 then
    ['\\', 'u', '2', '0', '2', hexDigit (c.toNat % 16)]
  else [c]

/-- Go `json.Marshal` of a string value (the `kb, _ := json.Marshal(k)` call
in `canonicalJSON`). -/
def jsonMarshalString (s : String) : List Char :=
  '"' :: (s.data.map escapeChar).flatten ++ ['"']

/-- The `if i > 0 { buf = append(buf, ',') }` comma-joining pattern of
`canonicalJSON`. -/
def commaJoin : List (List Char) → List Char
  | [] => []
  | [x] => x
  | x :: y :: rest => x ++ ',' :: commaJoin (y :: rest)

theorem sizeOf_lookupJ (fs : List (String × JValue)) (k : String) :
    sizeOf (lookupJ fs k) < 1 + sizeOf fs := by
  induction fs with
  | nil => simp [lookupJ]
  | cons p rest ih =>
    obtain ⟨k', v⟩ := p
    simp only [lookupJ]
    by_cases h : k' = k
    · subst h
      rw [if_pos rfl]
      simp only [List.cons.sizeOf_spec, Prod.mk.sizeOf_spec]
      omega
    · rw [if_neg h]
      simp only [List.cons.sizeOf_spec, Prod.mk.sizeOf_spec]
      omega

/-- Embedding of `canonicalJSON` (client.go:415-450): object keys are
collected, sorted with `sort.Strings`, and each `val[k]` is serialized
recursively; arrays preserve element order; scalars use `json.Marshal`.
The output models the returned byte buffer. -/
def canonicalJSON : JValue → List Char
  | .null => "null".data
  | .bool true => "true".data
  | .bool false => "false".data
  | .num n => intDecimal n
  | .str s => jsonMarshalString s
  | .arr xs => '[' :: commaJoin (xs.attach.map (fun x => canonicalJSON x.1)) ++ [']']
  | .obj fs =>
      '{' :: commaJoin ((sortStrings (fs.map Prod.fst)).map
        (fun k => jsonMarshalString k ++ ':' :: canonicalJSON (lookupJ fs k))) ++ ['}']
termination_by v => sizeOf v
decreasing_by
  · have := List.sizeOf_lt_of_mem x.2
    simp only [JValue.arr.sizeOf_spec]
    omega
  · have := sizeOf_lookupJ fs k
    simp only [JValue.obj.sizeOf_spec]
    omega

/-- Fuel-indexed twin of `canonicalJSON`, used only to evaluate it on
concrete inputs in the kernel (the well-founded `canonicalJSON` itself does
not reduce definitionally).  `canonFuel_spec` proves them equal whenever the
fuel covers the value's size. -/
def canonFuel : Nat → JValue → List Char
  | 0, _ => []
  | fuel + 1, v =>
    match v with
    | .null => "null".data
    | .bool true => "true".data
    | .bool false => "false".data
    | .num n => intDecimal n
    | .str s => jsonMarshalString s
    | .arr xs => '[' :: commaJoin (xs.map (canonFuel fuel)) ++ [']']
    | .obj fs =>
        '{' :: commaJoin ((sortStrings (fs.map Prod.fst)).map
          (fun k => jsonMarshalString k ++ ':' :: canonFuel fuel (lookupJ fs k))) ++ ['}']

theorem sizeOf_jvalue_pos (v : JValue) : 1 ≤ sizeOf v := by
  cases v <;> simp

theorem canonFuel_spec : ∀ fuel v, sizeOf v ≤ fuel → canonFuel fuel v = canonicalJSON v := by
  intro fuel
  induction fuel with
  | zero => intro v hv; exact absurd (sizeOf_jvalue_pos v) (by omega)
  | succ fuel ih =>
    intro v hv
    match v with
    | .null => simp [canonFuel, canonicalJSON]
    | .bool true => simp [canonFuel, canonicalJSON]
    | .bool false => simp [canonFuel, canonicalJSON]
    | .num n => simp [canonFuel, canonicalJSON]
    | .str s => simp [canonFuel, canonicalJSON]
    | .arr xs =>
      rw [canonFuel, canonicalJSON]
      have hmap : xs.attach.map (fun x => canonicalJSON x.1) = xs.map canonicalJSON :=
        List.attach_map_val xs canonicalJSON
      rw [hmap]
      congr 2
      congr 1
      apply List.map_congr_left
      intro x hx
      apply ih
      have h1 := List.sizeOf_lt_of_mem hx
      have h2 : sizeOf (JValue.arr xs) = 1 + sizeOf xs := by simp
      omega
    | .obj fs =>
      rw [canonFuel, canonicalJSON]
      congr 2
      congr 1
      apply List.map_congr_left
      intro k _
      have hlk : canonFuel fuel (lookupJ fs k) = canonicalJSON (lookupJ fs k) := by
        apply ih
        have h1 := sizeOf_lookupJ fs k
        have h2 : sizeOf (JValue.obj fs) = 1 + sizeOf fs := by simp
        omega
      rw [hlk]

theorem canonicalJSON_eval (fuel : Nat) {v : JValue} {out : List Char}
    (hfuel : sizeOf v ≤ fuel) (h : canonFuel fuel v = out) : canonicalJSON v = out :=
  (canonFuel_spec fuel v hfuel).symm.trans h

example : canonicalJSON (.obj [("z", .str "last"), ("a", .str "first"), ("m", .str "mid")]) =
    "\x7b\"a\":\"first\",\"m\":\"mid\",\"z\":\"last\"\x7d".data :=
  canonicalJSON_eval 1000000 (by decide) (by decide)

example : canonicalJSON (.obj [("b", .obj [("z", .num 1), ("a", .num 2)]), ("a", .str "top")]) =
    "\x7b\"a\":\"top\",\"b\":\x7b\"a\":2,\"z\":1\x7d\x7d".data :=
  canonicalJSON_eval 1000000 (by decide) (by decide)

example : canonicalJSON (.obj [("tags", .arr [.str "b", .str "a", .str "c"])]) =
    "\x7b\"tags\":[\"b\",\"a\",\"c\"]\x7d".data :=
  canonicalJSON_eval 1000000 (by decide) (by decide)

example : canonicalJSON (.obj []) = "{}".data :=
  canonicalJSON_eval 1000000 (by decide) (by decide)

example : canonicalJSON (.obj [("key", .null)]) = "\x7b\"key\":null\x7d".data :=
  canonicalJSON_eval 1000000 (by decide) (by decide)

example : canonicalJSON (.obj [("true", .bool true), ("false", .bool false)]) =
    "\x7b\"false\":false,\"true\":true\x7d".data :=
  canonicalJSON_eval 1000000 (by decide) (by decide)

example : canonicalJSON (.obj [("tags", .arr [])]) = "\x7b\"tags\":[]\x7d".data :=
  canonicalJSON_eval 1000000 (by decide) (by decide)

example : canonicalJSON (.arr []) = "[]".data :=
  canonicalJSON_eval 1000000 (by decide) (by decide)

/-! ## Well-formedness and semantic equality of JSON values

A Go `map[string]interface{}` cannot contain duplicate keys; `wfKeys`
expresses that invariant on the association-list model, recursively.
`JEquiv` is the semantic equality of the specification: same key-value
multimap at every object node (keys in any order), array order significant,
values recursively equal. -/

def nodupKeysB : List String → Bool
  | [] => true
  | k :: rest => !(List.contains rest k) && nodupKeysB rest

theorem nodupKeysB_iff : ∀ l : List String, nodupKeysB l = true ↔ l.Nodup := by
  intro l
  induction l with
  | nil => simp [nodupKeysB]
  | cons k rest ih =>
    simp [nodupKeysB, ih, List.contains]

mutual
/-- Go map well-formedness: at every object node the keys are distinct. -/
def wfKeys : JValue → Bool
  | .arr xs => wfList xs
  | .obj fs => nodupKeysB (fs.map Prod.fst) && wfFields fs
  | _ => true

def wfList : List JValue → Bool
  | [] => true
  | x :: xs => wfKeys x && wfList xs

def wfFields : List (String × JValue) → Bool
  | [] => true
  | (_, v) :: fs => wfKeys v && wfFields fs
end

theorem wfFields_val : ∀ fs : List (String × JValue), wfFields fs = true →
    ∀ p ∈ fs, wfKeys p.2 = true := by
  intro fs
  induction fs with
  | nil => intro _ p hp; cases hp
  | cons q rest ih =>
    obtain ⟨k, v⟩ := q
    intro h p hp
    rw [wfFields] at h
    rcases List.mem_cons.mp hp with rfl | hmem
    · exact (by simp at h; exact h.1)
    · exact ih (by simp at h; exact h.2) p hmem

theorem wfList_val : ∀ xs : List JValue, wfList xs = true →
    ∀ x ∈ xs, wfKeys x = true := by
  intro xs
  induction xs with
  | nil => intro _ x hx; cases hx
  | cons y rest ih =>
    intro h x hx
    rw [wfList] at h
    rcases List.mem_cons.mp hx with rfl | hmem
    · exact (by simp at h; exact h.1)
    · exact ih (by simp at h; exact h.2) x hmem

theorem wfKeys_obj_nodup {fs : List (String × JValue)}
    (h : wfKeys (.obj fs) = true) : nodupKeysB (fs.map Prod.fst) = true := by
  rw [wfKeys] at h
  exact (by simp at h; exact h.1)

theorem wfKeys_obj_val {fs : List (String × JValue)}
    (h : wfKeys (.obj fs) = true) : ∀ p ∈ fs, wfKeys p.2 = true := by
  rw [wfKeys] at h
  exact wfFields_val fs (by simp at h; exact h.2)

theorem wfKeys_arr_val {xs : List JValue}
    (h : wfKeys (.arr xs) = true) : ∀ x ∈ xs, wfKeys x = true := by
  rw [wfKeys] at h
  exact wfList_val xs h

/-- Semantic equality of JSON values: scalars equal, arrays pointwise
equivalent in order, objects carry the same keys with recursively
equivalent values, in any key order. -/
inductive JEquiv : JValue → JValue → Prop where
  | null : JEquiv .null .null
  | bool (b : Bool) : JEquiv (.bool b) (.bool b)
  | num (n : Int) : JEquiv (.num n) (.num n)
  | str (s : String) : JEquiv (.str s) (.str s)
  | arr {xs ys : List JValue} (hlen : xs.length = ys.length)
      (hv : ∀ p ∈ xs.zip ys, JEquiv p.1 p.2) : JEquiv (.arr xs) (.arr ys)
  | obj {fs gs hs : List (String × JValue)} (hlen : fs.length = gs.length)
      (hk : ∀ p ∈ fs.zip gs, p.1.1 = p.2.1)
      (hv : ∀ p ∈ fs.zip gs, JEquiv p.1.2 p.2.2)
      (hperm : gs.Perm hs) : JEquiv (.obj fs) (.obj hs)

theorem map_eq_of_zip {α β : Type} (f g : α → β) : ∀ (xs ys : List α),
    xs.length = ys.length → (∀ p ∈ xs.zip ys, f p.1 = g p.2) →
    xs.map f = ys.map g := by
  intro xs
  induction xs with
  | nil =>
    intro ys hlen _
    cases ys with
    | nil => rfl
    | cons y ys => simp at hlen
  | cons x xs ih =>
    intro ys hlen hpt
    cases ys with
    | nil => simp at hlen
    | cons y ys =>
      simp only [List.map_cons]
      rw [hpt (x, y) (by simp [List.zip_cons_cons]),
        ih ys (by simpa using hlen)
          (fun p hp => hpt p (by simp [List.zip_cons_cons, hp]))]

theorem sortStrings_perm_eq {l1 l2 : List String} (h : l1.Perm l2) :
    sortStrings l1 = sortStrings l2 := by
  exact List.eq_of_perm_of_sorted
    (((List.perm_insertionSort StrLeR l1).trans h).trans
      (List.perm_insertionSort StrLeR l2).symm)
    (List.sorted_insertionSort StrLeR l1)
    (List.sorted_insertionSort StrLeR l2)

theorem lookupJ_perm {gs hs : List (String × JValue)} (hperm : gs.Perm hs)
    (hnd : (gs.map Prod.fst).Nodup) : ∀ k, lookupJ gs k = lookupJ hs k := by
  induction hperm with
  | nil => intro k; rfl
  | cons p hrest ih =>
    intro k
    obtain ⟨k', v⟩ := p
    simp only [lookupJ]
    by_cases h : k' = k
    · simp [h]
    · rw [if_neg h, if_neg h]
      exact ih (by simpa using (List.nodup_cons.mp (by simpa using hnd)).2) k
  | swap x y l =>
    intro k
    obtain ⟨k1, v1⟩ := x
    obtain ⟨k2, v2⟩ := y
    simp only [lookupJ]
    by_cases h1 : k1 = k <;> by_cases h2 : k2 = k
    · exfalso
      simp only [List.map_cons, List.nodup_cons, List.mem_cons] at hnd
      exact hnd.1 (Or.inl (h2.trans h1.symm))
    · simp [h1, h2]
    · simp [h1, h2]
    · simp [h1, h2]
  | trans h12 h23 ih12 ih23 =>
    intro k
    rw [ih12 hnd k, ih23 (h12.map Prod.fst |>.nodup hnd) k]

theorem canon_lookup_zip : ∀ (fs gs : List (String × JValue)),
    fs.length = gs.length →
    (∀ p ∈ fs.zip gs, p.1.1 = p.2.1) →
    (∀ p ∈ fs.zip gs, wfKeys p.1.2 = true → canonicalJSON p.1.2 = canonicalJSON p.2.2) →
    (∀ p ∈ fs, wfKeys p.2 = true) →
    ∀ k, canonicalJSON (lookupJ fs k) = canonicalJSON (lookupJ gs k) := by
  intro fs
  induction fs with
  | nil =>
    intro gs hlen _ _ _ k
    cases gs with
    | nil => rfl
    | cons q gs => simp at hlen
  | cons p fs ih =>
    intro gs hlen hk hv hwf k
    cases gs with
    | nil => simp at hlen
    | cons q gs =>
      obtain ⟨k1, v1⟩ := p
      obtain ⟨k2, v2⟩ := q
      have hk12 : k1 = k2 := hk ((k1, v1), (k2, v2)) (by simp [List.zip_cons_cons])
      subst hk12
      simp only [lookupJ]
      by_cases h : k1 = k
      · rw [if_pos h, if_pos h]
        exact hv ((k1, v1), (k1, v2)) (by simp [List.zip_cons_cons])
          (hwf (k1, v1) (by simp))
      · rw [if_neg h, if_neg h]
        exact ih gs (by simpa using hlen)
          (fun r hr => hk r (by simp [List.zip_cons_cons, hr]))
          (fun r hr => hv r (by simp [List.zip_cons_cons, hr]))
          (fun r hr => hwf r (by simp [hr])) k

/-- Core of claim C1: semantically equal well-formed values have
byte-identical canonical serializations. -/
theorem canonicalJSON_equiv {a b : JValue} (h : JEquiv a b) :
    wfKeys a = true → canonicalJSON a = canonicalJSON b := by
  induction h with
  | null => intro _; rfl
  | bool b => intro _; rfl
  | num n => intro _; rfl
  | str s => intro _; rfl
  | @arr xs ys hlen hv ih =>
    intro hwf
    simp only [canonicalJSON]
    rw [List.attach_map_val xs canonicalJSON, List.attach_map_val ys canonicalJSON]
    congr 2
    congr 1
    apply map_eq_of_zip canonicalJSON canonicalJSON xs ys hlen
    intro p hp
    exact ih p hp (wfKeys_arr_val hwf p.1
      (List.of_mem_zip (by simpa using hp)).1)
  | @obj fs gs hs hlen hk hv hperm ih =>
    intro hwf
    have hnodup : (fs.map Prod.fst).Nodup := (nodupKeysB_iff _).mp (wfKeys_obj_nodup hwf)
    have hkeys : fs.map Prod.fst = gs.map Prod.fst :=
      map_eq_of_zip Prod.fst Prod.fst fs gs hlen hk
    have hpermk : (fs.map Prod.fst).Perm (hs.map Prod.fst) := by
      rw [hkeys]; exact hperm.map Prod.fst
    have hsort : sortStrings (fs.map Prod.fst) = sortStrings (hs.map Prod.fst) :=
      sortStrings_perm_eq hpermk
    have hndg : (gs.map Prod.fst).Nodup := hkeys ▸ hnodup
    have hlook : ∀ k, canonicalJSON (lookupJ fs k) = canonicalJSON (lookupJ hs k) := by
      intro k
      rw [canon_lookup_zip fs gs hlen hk ih (wfKeys_obj_val hwf) k,
        lookupJ_perm hperm hndg k]
    simp only [canonicalJSON]
    rw [hsort]
    congr 2
    congr 1
    apply List.map_congr_left
    intro k _
    rw [hlook k]

/-! ## Whitespace analysis of the canonical output -/

def isWS (c : Char) : Bool := c = ' ' || c = '\t' || c = '\n' || c = '\r'

/-- A string containing no JSON whitespace characters. -/
def strNoWS (s : String) : Bool := s.data.all (fun c => !isWS c)

mutual
/-- No key and no string scalar anywhere in the value contains whitespace. -/
def wsFree : JValue → Bool
  | .str s => strNoWS s
  | .arr xs => wsFreeList xs
  | .obj fs => wsFreeFields fs
  | _ => true

def wsFreeList : List JValue → Bool
  | [] => true
  | x :: xs => wsFree x && wsFreeList xs

def wsFreeFields : List (String × JValue) → Bool
  | [] => true
  | (k, v) :: fs => strNoWS k && wsFree v && wsFreeFields fs
end

theorem digitCh_noWS {d : Nat} (hd : d < 10) : isWS (digitCh d) = false := by
  interval_cases d <;> decide

theorem natDecimalAux_noWS : ∀ fuel n, ∀ c ∈ natDecimalAux fuel n, isWS c = false := by
  intro fuel
  induction fuel with
  | zero => intro n c hc; simp [natDecimalAux] at hc
  | succ fuel ih =>
    intro n c hc
    rw [natDecimalAux] at hc
    by_cases h : n < 10
    · rw [if_pos h] at hc
      simp only [List.mem_singleton] at hc
      subst hc
      exact digitCh_noWS h
    · rw [if_neg h] at hc
      rcases List.mem_append.mp hc with hc | hc
      · exact ih (n / 10) c hc
      · simp only [List.mem_singleton] at hc
        subst hc
        exact digitCh_noWS (Nat.mod_lt n (by omega))

theorem intDecimal_noWS (n : Int) : ∀ c ∈ intDecimal n, isWS c = false := by
  intro c hc
  cases n with
  | ofNat m => exact natDecimalAux_noWS _ _ c hc
  | negSucc m =>
    simp only [intDecimal, List.mem_cons] at hc
    rcases hc with rfl | hc
    · decide
    · exact natDecimalAux_noWS _ _ c hc

theorem hexDigit_noWS {d : Nat} (hd : d < 16) : isWS (hexDigit d) = false := by
  interval_cases d <;> decide

theorem escapeChar_noWS {c : Char} (h : isWS c = false) :
    ∀ c' ∈ escapeChar c, isWS c' = false := by
  intro c' hc'
  unfold escapeChar at hc'
  split at hc'
  · simp at hc'
    rcases hc' with rfl | rfl <;> decide
  · split at hc'
    · simp at hc'
      rcases hc' with rfl | rfl <;> decide
    · split at hc'
      · rename_i heq
        rw [heq] at h
        exact absurd h (by decide)
      · split at hc'
        · rename_i heq
          rw [heq] at h
          exact absurd h (by decide)
        · split at hc'
          · rename_i heq
            rw [heq] at h
            exact absurd h (by decide)
          · split at hc'
            case isTrue hcond =>
              have hle : c.toNat ≤ 62 := by
                rcases hcond with h1 | h1 | h1 | h1
                · omega
                · subst h1; decide
                · subst h1; decide
                · subst h1; decide
              simp at hc'
              rcases hc' with rfl | rfl | rfl | rfl | rfl
              · decide
              · decide
              · decide
              · exact hexDigit_noWS (by omega)
              · exact hexDigit_noWS (Nat.mod_lt _ (by omega))
            case isFalse =>
              split at hc'
              · simp at hc'
                rcases hc' with rfl | rfl | rfl | rfl | rfl | rfl
                · decide
                · decide
                · decide
                · decide
                · decide
                · exact hexDigit_noWS (Nat.mod_lt _ (by omega))
              · simp at hc'
                subst hc'
                exact h

theorem jsonMarshalString_noWS {s : String} (h : strNoWS s = true) :
    ∀ c ∈ jsonMarshalString s, isWS c = false := by
  intro c hc
  unfold jsonMarshalString at hc
  rcases List.mem_cons.mp hc with rfl | hc
  · decide
  · rcases List.mem_append.mp hc with hc | hc
    · rw [List.mem_flatten] at hc
      obtain ⟨l, hl, hcl⟩ := hc
      rw [List.mem_map] at hl
      obtain ⟨c0, hc0, rfl⟩ := hl
      have hc0ws : isWS c0 = false := by
        unfold strNoWS at h
        rw [List.all_eq_true] at h
        simpa using h c0 hc0
      exact escapeChar_noWS hc0ws c hcl
    · rcases List.mem_singleton.mp hc with rfl
      decide

theorem commaJoin_mem : ∀ (ls : List (List Char)) (c : Char), c ∈ commaJoin ls →
    c = ',' ∨ ∃ l ∈ ls, c ∈ l := by
  intro ls
  induction ls with
  | nil => intro c hc; simp [commaJoin] at hc
  | cons x rest ih =>
    intro c hc
    cases rest with
    | nil =>
      right
      exact ⟨x, by simp, by simpa [commaJoin] using hc⟩
    | cons y rest' =>
      rw [commaJoin] at hc
      rcases List.mem_append.mp hc with hc | hc
      · right; exact ⟨x, by simp, hc⟩
      · rcases List.mem_cons.mp hc with rfl | hc
        · left; rfl
        · rcases ih c hc with rfl | ⟨l, hl, hcl⟩
          · left; rfl
          · right; exact ⟨l, by simp [hl], hcl⟩

theorem wsFreeFields_key : ∀ fs : List (String × JValue), wsFreeFields fs = true →
    ∀ k ∈ fs.map Prod.fst, strNoWS k = true := by
  intro fs
  induction fs with
  | nil => intro _ k hk; simp at hk
  | cons p rest ih =>
    obtain ⟨k0, v0⟩ := p
    intro h k hk
    rw [wsFreeFields] at h
    simp only [Bool.and_eq_true] at h
    rw [List.map_cons] at hk
    rcases List.mem_cons.mp hk with rfl | hmem
    · exact h.1.1
    · exact ih h.2 k hmem

theorem wsFree_lookupJ : ∀ fs : List (String × JValue), wsFreeFields fs = true →
    ∀ k, wsFree (lookupJ fs k) = true := by
  intro fs
  induction fs with
  | nil => intro _ k; rfl
  | cons p rest ih =>
    obtain ⟨k0, v0⟩ := p
    intro h k
    rw [wsFreeFields] at h
    simp only [Bool.and_eq_true] at h
    rw [lookupJ]
    by_cases hk : k0 = k
    · rw [if_pos hk]; exact h.1.2
    · rw [if_neg hk]; exact ih h.2 k

theorem wsFreeList_val : ∀ xs : List JValue, wsFreeList xs = true →
    ∀ x ∈ xs, wsFree x = true := by
  intro xs
  induction xs with
  | nil => intro _ x hx; cases hx
  | cons y rest ih =>
    intro h x hx
    rw [wsFreeList] at h
    simp only [Bool.and_eq_true] at h
    rcases List.mem_cons.mp hx with rfl | hmem
    · exact h.1
    · exact ih h.2 x hmem

theorem canonicalJSON_noWS (v : JValue) (hws : wsFree v = true) :
    ∀ c ∈ canonicalJSON v, isWS c = false := by
  match v with
  | .null =>
    intro c hc
    simp only [canonicalJSON] at hc
    simp at hc
    rcases hc with rfl | rfl | rfl <;> decide
  | .bool true =>
    intro c hc
    simp only [canonicalJSON] at hc
    simp at hc
    rcases hc with rfl | rfl | rfl | rfl <;> decide
  | .bool false =>
    intro c hc
    simp only [canonicalJSON] at hc
    simp at hc
    rcases hc with rfl | rfl | rfl | rfl | rfl <;> decide
  | .num n =>
    intro c hc
    simp only [canonicalJSON] at hc
    exact intDecimal_noWS n c hc
  | .str s =>
    intro c hc
    simp only [canonicalJSON] at hc
    rw [wsFree] at hws
    exact jsonMarshalString_noWS hws c hc
  | .arr xs =>
    intro c hc
    simp only [canonicalJSON] at hc
    rcases List.mem_cons.mp hc with rfl | hc
    · decide
    rcases List.mem_append.mp hc with hc | hc
    · rcases commaJoin_mem _ c hc with rfl | ⟨l, hl, hcl⟩
      · decide
      · rw [List.attach_map_val xs canonicalJSON] at hl
        rw [List.mem_map] at hl
        obtain ⟨x, hx, rfl⟩ := hl
        have hwx : wsFree x = true := by
          rw [wsFree] at hws
          exact wsFreeList_val xs hws x hx
        exact canonicalJSON_noWS x hwx c hcl
    · rcases List.mem_singleton.mp hc with rfl
      decide
  | .obj fs =>
    intro c hc
    simp only [canonicalJSON] at hc
    rcases List.mem_cons.mp hc with rfl | hc
    · decide
    rcases List.mem_append.mp hc with hc | hc
    · rcases commaJoin_mem _ c hc with rfl | ⟨l, hl, hcl⟩
      · decide
      · rw [List.mem_map] at hl
        obtain ⟨k, hk, rfl⟩ := hl
        have hkmem : k ∈ fs.map Prod.fst :=
          (List.perm_insertionSort StrLeR (fs.map Prod.fst)).mem_iff.mp hk
        have hwsf : wsFreeFields fs = true := by rw [wsFree] at hws; exact hws
        rcases List.mem_append.mp hcl with hcl | hcl
        · exact jsonMarshalString_noWS (wsFreeFields_key fs hwsf k hkmem) c hcl
        · rcases List.mem_cons.mp hcl with rfl | hcl
          · decide
          · exact canonicalJSON_noWS (lookupJ fs k) (wsFree_lookupJ fs hwsf k) c hcl
    · rcases List.mem_singleton.mp hc with rfl
      decide
termination_by sizeOf v
decreasing_by
  · have h1 := List.sizeOf_lt_of_mem hx
    simp only [JValue.arr.sizeOf_spec]
    omega
  · have h1 := sizeOf_lookupJ fs k
    simp only [JValue.obj.sizeOf_spec]
    omega

/-! ## Claim C1 -/

/-- **C1, counterexample.** As stated, claim C1 asserts that no whitespace
byte ever appears in the canonical output.  This fails as soon as a string
value (or key) contains a whitespace character: `canonicalJSON` of
`{"a": "x y"}` contains the space byte, because Go's JSON string encoder
emits `0x20` verbatim inside string literals. -/
theorem C1_whitespace_counterexample :
    ' ' ∈ canonicalJSON (JValue.obj [("a", JValue.str "x y")]) := by
  have h : canonicalJSON (JValue.obj [("a", JValue.str "x y")]) = "\x7b\"a\":\"x y\"\x7d".data :=
    canonicalJSON_eval 1000000 (by decide) (by decide)
  rw [h]
  decide

/-- **C1 (amended).** For every two well-formed (distinct-keyed) JSON values
that are semantically equal (same key-value map at every object node, keys in
any order, values recursively equal), `canonicalJSON` produces byte-identical
output; `canonicalJSON` of the empty object is `"{}"` and of the empty array
is `"[]"`; object keys are emitted in ascending byte order at every nesting
depth; array element order is preserved; and the serializer itself never
emits a whitespace byte: whitespace can appear in the output only inside
JSON string literals (if no key or string value contains whitespace, the
output contains no whitespace byte). -/
theorem C1_canonicalJSON_correct :
    (∀ m1 m2 : JValue, wfKeys m1 = true → JEquiv m1 m2 →
        canonicalJSON m1 = canonicalJSON m2)
    ∧ canonicalJSON (JValue.obj []) = "{}".data
    ∧ canonicalJSON (JValue.arr []) = "[]".data
    ∧ (∀ fs : List (String × JValue),
        List.Sorted StrLeR (sortStrings (fs.map Prod.fst)) ∧
        (sortStrings (fs.map Prod.fst)).Perm (fs.map Prod.fst) ∧
        canonicalJSON (JValue.obj fs) =
          '{' :: commaJoin ((sortStrings (fs.map Prod.fst)).map
            (fun k => jsonMarshalString k ++ ':' :: canonicalJSON (lookupJ fs k))) ++ ['}'])
    ∧ (∀ xs : List JValue, canonicalJSON (JValue.arr xs) =
        '[' :: commaJoin (xs.map canonicalJSON) ++ [']'])
    ∧ (∀ m : JValue, wsFree m = true → ∀ c ∈ canonicalJSON m, isWS c = false) := by
  refine ⟨?_, ?_, ?_, ?_, ?_, ?_⟩
  · intro m1 m2 hwf h
    exact canonicalJSON_equiv h hwf
  · exact canonicalJSON_eval 1000000 (by decide) (by decide)
  · exact canonicalJSON_eval 1000000 (by decide) (by decide)
  · intro fs
    refine ⟨List.sorted_insertionSort StrLeR _, List.perm_insertionSort StrLeR _, ?_⟩
    simp only [canonicalJSON]
  · intro xs
    simp only [canonicalJSON]
    rw [List.attach_map_val xs canonicalJSON]
  · exact fun m h => canonicalJSON_noWS m h

/-- **C1, witness.** The amended theorem applied at concrete inputs:
key-permuted objects `{"a":1,"b":2}` and `{"b":2,"a":1}` serialize
identically, and a whitespace-free value yields whitespace-free output. -/
theorem C1_canonicalJSON_correct_witness :
    canonicalJSON (JValue.obj [("a", JValue.num 1), ("b", JValue.num 2)]) =
      canonicalJSON (JValue.obj [("b", JValue.num 2), ("a", JValue.num 1)]) ∧
    (∀ c ∈ canonicalJSON (JValue.obj [("a", JValue.str "xy")]), isWS c = false) :=
  ⟨C1_canonicalJSON_correct.1 _ _ (by decide)
    (JEquiv.obj rfl
      (by
        intro p hp
        rcases List.mem_cons.mp hp with rfl | hp
        · rfl
        rcases List.mem_cons.mp hp with rfl | hp
        · rfl
        · cases hp)
      (by
        intro p hp
        rcases List.mem_cons.mp hp with rfl | hp
        · exact JEquiv.num 1
        rcases List.mem_cons.mp hp with rfl | hp
        · exact JEquiv.num 2
        · cases hp)
      (List.Perm.swap ("b", JValue.num 2) ("a", JValue.num 1) [])),
   C1_canonicalJSON_correct.2.2.2.2.2 _ (by decide)⟩

/-! ## Claim C2 — `sign` and the `signature` key (client.go:409-413)

`sign(msg)` computes `canonical, _ := canonicalJSON(msg)` and signs those
bytes with Ed25519.  The Ed25519 and base58 steps are deterministic
functions of these bytes, so the claim about which bytes are signed is a
claim about `canonicalJSON(msg)`. -/

/-- The byte string handed to `ed25519.Sign` by `sign`: the message map is
canonicalized exactly as given — the code removes no key. -/
def signedBytes (msg : List (String × JValue)) : List Char :=
  canonicalJSON (.obj msg)

/-- Modelled from the spec (§4.B "Signing a message `m`"): the bytes the
specification says are signed: `m' = m` with any key named `signature`
removed, then canonicalized.  This definition exists only to compare the
code's behaviour against the spec's words. -/
def signedBytesSpec (msg : List (String × JValue)) : List Char :=
  canonicalJSON (.obj (msg.filter (fun p => p.1 ≠ "signature")))

/-- **C2 (code bug).** At the failing input `m = {"type":"test"}` with
`"signature":"abc"` present, the code signs over the `signature` key: the
canonical bytes differ from those of the map without the key, contradicting
the claim (and the spec §4.B / §8, and the intent documented in
`TestCanonicalJSON_SignatureRemoved`).  The spec-modelled signer, by
contrast, is insensitive to the `signature` key. -/
theorem C2_sign_includes_signature :
    signedBytes [("type", JValue.str "test"), ("signature", JValue.str "abc")] ≠
      signedBytes [("type", JValue.str "test")] ∧
    signedBytesSpec [("type", JValue.str "test"), ("signature", JValue.str "abc")] =
      signedBytesSpec [("type", JValue.str "test")] := by
  have h1 : canonicalJSON (JValue.obj [("type", JValue.str "test"),
      ("signature", JValue.str "abc")]) =
      "\x7b\"signature\":\"abc\",\"type\":\"test\"\x7d".data :=
    canonicalJSON_eval 1000000 (by decide) (by decide)
  have h2 : canonicalJSON (JValue.obj [("type", JValue.str "test")]) =
      "\x7b\"type\":\"test\"\x7d".data :=
    canonicalJSON_eval 1000000 (by decide) (by decide)
  constructor
  · unfold signedBytes
    rw [h1, h2]
    decide
  · rfl

/-! ## Claim C3 — `recvTyped` (client, revised version in client_test.go 425-474) -/

/-- A parsed response envelope: `recvTyped` unmarshals only `type` and
`room` for matching; `payload` stands for the rest of the raw JSON frame. -/
structure Envelope where
  type : String
  room : String
  payload : Nat
deriving DecidableEq

/-- The match test of `recvTyped`: first the type filter over `wantTypes`,
then — only for `room.joined` when `wantRoom` is set — the room filter. -/
def envMatches (wantRoom : String) (wantTypes : List String) (e : Envelope) : Bool :=
  if ¬ (wantTypes.contains e.type) then false
  else if wantRoom ≠ "" ∧ e.type = "room.joined" ∧ e.room ≠ wantRoom then false
  else true

def recvTypedAux (wantRoom : String) (wantTypes : List String) :
    List Envelope → List Envelope → Except String (Envelope × List Envelope)
  | _, [] => .error "timeout waiting for relay response"
  | queued, e :: rest =>
    if envMatches wantRoom wantTypes e then .ok (e, queued)
    else recvTypedAux wantRoom wantTypes (queued ++ [e]) rest

/-- `recvTyped` over the finite list of envelopes that arrive on the
response channel before the 15-second deadline: reads envelopes in order,
returns the first match together with the queue of skipped envelopes (which
the deferred goroutine re-enqueues into the response channel after return);
an exhausted stream models the deadline firing with no match. -/
def recvTyped (wantRoom : String) (wantTypes : List String)
    (stream : List Envelope) : Except String (Envelope × List Envelope) :=
  recvTypedAux wantRoom wantTypes [] stream

theorem recvTypedAux_found (wantRoom : String) (wantTypes : List String) :
    ∀ (pre : List Envelope) (queued : List Envelope) (e : Envelope) (post : List Envelope),
      (∀ e' ∈ pre, envMatches wantRoom wantTypes e' = false) →
      envMatches wantRoom wantTypes e = true →
      recvTypedAux wantRoom wantTypes queued (pre ++ e :: post) = .ok (e, queued ++ pre) := by
  intro pre
  induction pre with
  | nil =>
    intro queued e post _ he
    simp [recvTypedAux, he]
  | cons x pre ih =>
    intro queued e post hpre he
    have hx : envMatches wantRoom wantTypes x = false := hpre x (by simp)
    simp only [List.cons_append, recvTypedAux, hx, Bool.false_eq_true, if_false,
      List.append_eq]
    rw [ih (queued ++ [x]) e post (fun e' he' => hpre e' (by simp [he'])) he]
    simp

theorem recvTypedAux_timeout (wantRoom : String) (wantTypes : List String) :
    ∀ (stream : List Envelope) (queued : List Envelope),
      (∀ e ∈ stream, envMatches wantRoom wantTypes e = false) →
      recvTypedAux wantRoom wantTypes queued stream =
        .error "timeout waiting for relay response" := by
  intro stream
  induction stream with
  | nil => intro queued _; rfl
  | cons x rest ih =>
    intro queued h
    have hx : envMatches wantRoom wantTypes x = false := h x (by simp)
    simp only [recvTypedAux, hx, Bool.false_eq_true, if_false]
    exact ih (queued ++ [x]) (fun e he => h e (by simp [he]))

/-- **C3.** `recvTyped` returns the first envelope of the response stream
whose type is in `wantTypes` — and, when `wantRoom` is set and the type is
`"room.joined"`, whose room equals `wantRoom` — skipping exactly the
non-matching prefix, which is the re-enqueued queue; with no matching
envelope in the stream (the 15-second deadline fires) it fails with the
timeout error.  The first conjunct identifies the code's match test with
the claim's description of it. -/
theorem C3_recvTyped_correct (wantRoom : String) (wantTypes : List String) :
    (∀ e : Envelope, envMatches wantRoom wantTypes e = true ↔
      (e.type ∈ wantTypes ∧
        (wantRoom ≠ "" → e.type = "room.joined" → e.room = wantRoom)))
    ∧ (∀ (pre : List Envelope) (e : Envelope) (post : List Envelope),
        (∀ e' ∈ pre, envMatches wantRoom wantTypes e' = false) →
        envMatches wantRoom wantTypes e = true →
        recvTyped wantRoom wantTypes (pre ++ e :: post) = .ok (e, pre))
    ∧ (∀ stream : List Envelope,
        (∀ e ∈ stream, envMatches wantRoom wantTypes e = false) →
        recvTyped wantRoom wantTypes stream =
          .error "timeout waiting for relay response") := by
  refine ⟨?_, ?_, ?_⟩
  · intro e
    unfold envMatches
    constructor
    · intro h
      by_cases ht : wantTypes.contains e.type
      · refine ⟨by simpa using ht, ?_⟩
        intro hroom htype
        rw [if_neg (by simpa using ht)] at h
        by_cases hr : e.room = wantRoom
        · exact hr
        · rw [if_pos ⟨hroom, htype, hr⟩] at h
          cases h
      · rw [if_pos (by simpa using ht)] at h
        cases h
    · intro ⟨ht, hr⟩
      rw [if_neg (by simpa using ht)]
      rw [if_neg ?_]
      intro ⟨h1, h2, h3⟩
      exact h3 (hr h1 h2)
  · intro pre e post hpre he
    unfold recvTyped
    rw [recvTypedAux_found wantRoom wantTypes pre [] e post hpre he]
    simp
  · intro stream h
    exact recvTypedAux_timeout wantRoom wantTypes stream [] h

/-- **C3, witness.** Concrete run: waiting for `room.joined` of room `"r"`,
a stale `room.joined` for `"other"` and a `pong`-like frame are skipped and
re-enqueued; the matching envelope is returned; an all-stale stream times
out. -/
theorem C3_recvTyped_correct_witness :
    recvTyped "r" ["room.joined", "error"]
      [⟨"room.joined", "other", 1⟩, ⟨"rooms.list.result", "", 2⟩, ⟨"room.joined", "r", 3⟩] =
      .ok (⟨"room.joined", "r", 3⟩,
        [⟨"room.joined", "other", 1⟩, ⟨"rooms.list.result", "", 2⟩]) ∧
    recvTyped "r" ["room.joined", "error"] [⟨"rooms.list.result", "", 7⟩] =
      .error "timeout waiting for relay response" :=
  ⟨(C3_recvTyped_correct "r" ["room.joined", "error"]).2.1
      [⟨"room.joined", "other", 1⟩, ⟨"rooms.list.result", "", 2⟩]
      ⟨"room.joined", "r", 3⟩ [] (by decide) (by decide),
   (C3_recvTyped_correct "r" ["room.joined", "error"]).2.2
      [⟨"rooms.list.result", "", 7⟩] (by decide)⟩

/-! ## Claim C6 — `/messages` drain (daemon.go:408-431) -/

structure IncomingMessage where
  room : String
  fromId : String
  text : String
  timestamp : Int
deriving DecidableEq

/-- ASCII case folding of Go `strings.EqualFold` (the rooms in this API are
ASCII; simple fold equality coincides with lower-casing). -/
def eqFold (a b : String) : Bool :=
  a.data.map Char.toLower == b.data.map Char.toLower

/-- The filter test of `handleMessages`:
`roomFilter == "" || strings.EqualFold(m.Room, roomFilter)`. -/
def matchesRoom (roomFilter : String) (m : IncomingMessage) : Bool :=
  roomFilter == "" || eqFold m.room roomFilter

/-- The drain loop of `handleMessages`: each buffered record goes to `msgs`
when it matches, otherwise to `remaining`, preserving order. -/
def drainLoop (p : IncomingMessage → Bool) :
    List IncomingMessage → List IncomingMessage → List IncomingMessage →
    List IncomingMessage × List IncomingMessage
  | [], msgs, remaining => (msgs, remaining)
  | m :: rest, msgs, remaining =>
    if p m then drainLoop p rest (msgs ++ [m]) remaining
    else drainLoop p rest msgs (remaining ++ [m])

/-- Go `msgs = msgs[len(msgs)-50:]` when more than `n` matched. -/
def lastN (n : Nat) (l : List IncomingMessage) : List IncomingMessage :=
  if l.length > n then l.drop (l.length - n) else l

/-- `handleMessages` (daemon.go:408-431): drains the buffer through the
room filter, keeps the non-matching records as the new buffer, and responds
with the last 50 matching records. -/
def handleMessages (roomFilter : String) (buffer : List IncomingMessage) :
    List IncomingMessage × List IncomingMessage :=
  let (msgs, remaining) := drainLoop (matchesRoom roomFilter) buffer [] []
  (lastN 50 msgs, remaining)

theorem drainLoop_spec (p : IncomingMessage → Bool) :
    ∀ (stream msgs remaining : List IncomingMessage),
      drainLoop p stream msgs remaining =
        (msgs ++ stream.filter p, remaining ++ stream.filter (fun m => !(p m))) := by
  intro stream
  induction stream with
  | nil => intro msgs remaining; simp [drainLoop]
  | cons m rest ih =>
    intro msgs remaining
    rw [drainLoop]
    by_cases h : p m
    · rw [if_pos h, ih]
      simp [List.filter, h]
    · rw [if_neg h, ih]
      simp only [Bool.not_eq_true] at h
      simp [List.filter, h]

/-- **C6.** After `GET /messages?room=R`: the response is the most recent
at-most-50 buffered records matching `R` case-insensitively, in buffer
order; every matching record (not only the returned ones) has left the
buffer; non-matching records remain in their original relative order; with
no room filter everything matches, so all records are returned (capped at
the most recent 50) and the buffer is left empty. -/
theorem C6_handleMessages_correct (roomFilter : String)
    (buffer : List IncomingMessage) :
    (handleMessages roomFilter buffer).1 =
      lastN 50 (buffer.filter (matchesRoom roomFilter))
    ∧ (handleMessages roomFilter buffer).2 =
      buffer.filter (fun m => !(matchesRoom roomFilter m))
    ∧ (∀ m ∈ (handleMessages roomFilter buffer).2,
        matchesRoom roomFilter m = false)
    ∧ (roomFilter = "" →
        (handleMessages roomFilter buffer).2 = [] ∧
        (handleMessages roomFilter buffer).1 = lastN 50 buffer) := by
  have hdrain := drainLoop_spec (matchesRoom roomFilter) buffer [] []
  have h1 : (handleMessages roomFilter buffer).1 =
      lastN 50 (buffer.filter (matchesRoom roomFilter)) := by
    unfold handleMessages
    rw [hdrain]
    simp
  have h2 : (handleMessages roomFilter buffer).2 =
      buffer.filter (fun m => !(matchesRoom roomFilter m)) := by
    unfold handleMessages
    rw [hdrain]
    simp
  refine ⟨h1, h2, ?_, ?_⟩
  · intro m hm
    rw [h2] at hm
    have := List.of_mem_filter hm
    simpa using this
  · intro hempty
    subst hempty
    constructor
    · rw [h2]
      simp [matchesRoom]
    · rw [h1]
      congr 1
      simp [matchesRoom]

/-- **C6, witness.** The scenario of `TestMessages_RoomFilter` plus a
case-differing room: filtering on `room-a` returns both `room-a` records
(case-insensitively) in order and leaves only the `room-b` record; an
unfiltered drain empties the buffer. -/
theorem C6_handleMessages_correct_witness :
    (handleMessages "room-a"
      [⟨"room-a", "a1", "hello from a", 0⟩, ⟨"room-b", "b1", "hello from b", 0⟩,
       ⟨"Room-A", "a2", "another from a", 0⟩]).1 =
      [⟨"room-a", "a1", "hello from a", 0⟩, ⟨"Room-A", "a2", "another from a", 0⟩]
    ∧ (handleMessages "room-a"
      [⟨"room-a", "a1", "hello from a", 0⟩, ⟨"room-b", "b1", "hello from b", 0⟩,
       ⟨"Room-A", "a2", "another from a", 0⟩]).2 =
      [⟨"room-b", "b1", "hello from b", 0⟩]
    ∧ (handleMessages "" [⟨"room-a", "a1", "x", 0⟩, ⟨"room-b", "b1", "y", 0⟩]).2 = [] :=
  ⟨((C6_handleMessages_correct "room-a" _).1).trans (by decide),
   ((C6_handleMessages_correct "room-a" _).2.1).trans (by decide),
   ((C6_handleMessages_correct "" _).2.2.2 rfl).1⟩

/-! ## Claim C7 — the incoming ring buffer (daemon.go:234-243) -/

/-- One insertion of `collectMessages`: when the buffer already holds 1000
(or more) records the oldest (`d.messages[1:]`) is dropped before the new
record is appended. -/
def ringInsert (buf : List IncomingMessage) (m : IncomingMessage) :
    List IncomingMessage :=
  let buf' := if buf.length ≥ 1000 then buf.tail else buf
  buf' ++ [m]

theorem ringInsert_le (buf : List IncomingMessage) (m : IncomingMessage)
    (h : buf.length ≤ 1000) : (ringInsert buf m).length ≤ 1000 := by
  unfold ringInsert
  by_cases h1 : buf.length ≥ 1000
  · rw [if_pos h1]
    simp [List.length_tail]
    omega
  · rw [if_neg h1]
    simp
    omega

/-- **C7.** Starting from the daemon's empty buffer, any sequence of
insertions leaves at most 1000 records; an insertion into a full buffer
evicts exactly the oldest record before appending (FIFO order preserved),
and an insertion into a non-full buffer is a plain append. -/
theorem C7_ring_buffer_bound :
    (∀ ms : List IncomingMessage, (ms.foldl ringInsert []).length ≤ 1000)
    ∧ (∀ (buf : List IncomingMessage) (m : IncomingMessage),
        buf.length = 1000 → ringInsert buf m = buf.tail ++ [m])
    ∧ (∀ (buf : List IncomingMessage) (m : IncomingMessage),
        buf.length < 1000 → ringInsert buf m = buf ++ [m]) := by
  refine ⟨?_, ?_, ?_⟩
  · have key : ∀ (ms : List IncomingMessage) (buf : List IncomingMessage),
        buf.length ≤ 1000 → (ms.foldl ringInsert buf).length ≤ 1000 := by
      intro ms
      induction ms with
      | nil => intro buf h; simpa using h
      | cons m rest ih =>
        intro buf h
        rw [List.foldl_cons]
        exact ih (ringInsert buf m) (ringInsert_le buf m h)
    intro ms
    exact key ms [] (by simp)
  · intro buf m h
    unfold ringInsert
    rw [if_pos (by omega)]
  · intro buf m h
    unfold ringInsert
    rw [if_neg (by omega)]

/-- **C7, witness.** A full buffer of 1000 records evicts its head on
insert; the bound holds on a concrete insertion sequence. -/
theorem C7_ring_buffer_bound_witness :
    ringInsert (List.replicate 1000 ⟨"r", "f", "t", 0⟩) ⟨"r2", "f2", "t2", 1⟩ =
      (List.replicate 1000 (⟨"r", "f", "t", 0⟩ : IncomingMessage)).tail ++
        [⟨"r2", "f2", "t2", 1⟩]
    ∧ ringInsert [⟨"a", "b", "c", 0⟩] ⟨"d", "e", "f", 1⟩ =
      [⟨"a", "b", "c", 0⟩, ⟨"d", "e", "f", 1⟩] :=
  ⟨C7_ring_buffer_bound.2.1 _ _ (by rw [List.length_replicate]),
   (C7_ring_buffer_bound.2.2 _ _ (by decide)).trans (by decide)⟩

/-! ## Claim C9 — HTTP method checks of the POST endpoints (daemon.go)

Each handler is modelled as the HTTP status code it responds with.  The
inputs that the daemon reads from the request and its own state are
parameters: the request method, whether the JSON body decodes, whether a
relay client is connected, and whether the relay operation / socket write
succeeds. -/

/-- `requireAuth` (daemon.go:124-133): 401 unless the `Authorization`
header is exactly `Bearer <token>`, otherwise the wrapped handler runs. -/
def requireAuth (authHeader token : String) (inner : Nat) : Nat :=
  if authHeader ≠ "Bearer " ++ token then 401 else inner

/-- `handleCreateRoom` (daemon.go:281-314). -/
def handleCreateRoomStatus (method : String) (bodyOk connected opOk : Bool) : Nat :=
  if method ≠ "POST" then 405
  else if !bodyOk then 400
  else if !connected then 503
  else if !opOk then 400
  else 200

/-- `handleJoinRoom` (daemon.go:316-347). -/
def handleJoinRoomStatus (method : String) (bodyOk connected opOk : Bool) : Nat :=
  if method ≠ "POST" then 405
  else if !bodyOk then 400
  else if !connected then 503
  else if !opOk then 400
  else 200

/-- `handleLeaveRoom` (daemon.go:349-376); the body decode error is
ignored there, so no 400 branch exists. -/
def handleLeaveRoomStatus (method : String) (connected writeOk : Bool) : Nat :=
  if method ≠ "POST" then 405
  else if !connected then 503
  else if !writeOk then 500
  else 200

/-- `handleSend` (daemon.go:378-406). -/
def handleSendStatus (method : String) (bodyOk connected writeOk : Bool) : Nat :=
  if method ≠ "POST" then 405
  else if !bodyOk then 400
  else if !connected then 503
  else if !writeOk then 500
  else 200

/-- `handleStop` (daemon.go:530-540): responds `{"status":"stopping"}` with
status 200 and exits — it never inspects the request method. -/
def handleStopStatus (_method : String) : Nat := 200

/-- **C9, counterexample.** An authorized `GET /stop` is answered with
status 200 (and stops the daemon), not 405: `handleStop` has no method
check, so the claim fails for the `/stop` endpoint. -/
theorem C9_stop_counterexample :
    requireAuth ("Bearer " ++ "tok") "tok" (handleStopStatus "GET") = 200 ∧
    requireAuth ("Bearer " ++ "tok") "tok" (handleStopStatus "GET") ≠ 405 := by
  constructor
  · decide
  · decide

/-- **C9 (amended).** Of the daemon's POST endpoints, `/rooms/create`,
`/rooms/join`, `/rooms/leave` and `/send` respond 405 to every authorized
non-POST request; `/stop` is the exception: it responds 200 to every
authorized request regardless of method. -/
theorem C9_post_method_check (token method : String)
    (bodyOk connected opOk writeOk : Bool) (hm : method ≠ "POST") :
    requireAuth ("Bearer " ++ token) token
      (handleCreateRoomStatus method bodyOk connected opOk) = 405
    ∧ requireAuth ("Bearer " ++ token) token
      (handleJoinRoomStatus method bodyOk connected opOk) = 405
    ∧ requireAuth ("Bearer " ++ token) token
      (handleLeaveRoomStatus method connected writeOk) = 405
    ∧ requireAuth ("Bearer " ++ token) token
      (handleSendStatus method bodyOk connected writeOk) = 405
    ∧ requireAuth ("Bearer " ++ token) token (handleStopStatus method) = 200 := by
  unfold requireAuth handleCreateRoomStatus handleJoinRoomStatus
    handleLeaveRoomStatus handleSendStatus handleStopStatus
  simp [hm]

/-- **C9, witness.** The amended theorem at a concrete authorized `GET`. -/
theorem C9_post_method_check_witness :
    requireAuth ("Bearer " ++ "tok") "tok"
      (handleCreateRoomStatus "GET" true true true) = 405
    ∧ requireAuth ("Bearer " ++ "tok") "tok"
      (handleSendStatus "GET" true true true) = 405 :=
  ⟨(C9_post_method_check "tok" "GET" true true true true (by decide)).1,
   (C9_post_method_check "tok" "GET" true true true true (by decide)).2.2.2.1⟩

/-! ## Claim C10 — `LeaveRoom` and the two room sets -/

/-- The client's room-membership set (the key set of `c.rooms`). -/
structure ClientState where
  rooms : List String
deriving DecidableEq

/-- The daemon's intent set (`d.joinedRooms`). -/
structure DaemonState where
  joinedRooms : List String
deriving DecidableEq

/-- `Client.LeaveRoom` (client.go:273-287): the signed `room.leave` message
is built, the room is deleted from `c.rooms`, and only then the socket
write is attempted; its outcome (`writeOk`) is returned unchanged.  The
`writeOk` parameter models the result of `c.writeJSON`. -/
def LeaveRoom (st : ClientState) (name : String) (writeOk : Bool) :
    ClientState × Bool :=
  ({ rooms := st.rooms.filter (fun r => r ≠ name) }, writeOk)

/-- `handleLeaveRoom` (daemon.go:349-376): calls `Client.LeaveRoom`; on a
write error it responds 500 without touching `joinedRooms`; on success it
deletes the room from `joinedRooms` and responds 200. -/
def handleLeaveRoom (d : DaemonState) (cs : ClientState) (room : String)
    (writeOk : Bool) : DaemonState × ClientState × Nat :=
  let res := LeaveRoom cs room writeOk
  if !res.2 then (d, res.1, 500)
  else ({ joinedRooms := d.joinedRooms.filter (fun r => r ≠ room) }, res.1, 200)

/-- **C10.** `Client.LeaveRoom` removes the room from the client's set
before the socket write, so the removal persists for *every* write outcome
(the operation is not atomic with respect to errors); the write outcome is
returned unchanged.  The daemon's `joinedRooms` intent set, by contrast, is
left untouched when the write fails (the handler responds 500) and only
loses the room after a successful write (status 200). -/
theorem C10_leaveRoom_not_atomic (cs : ClientState) (d : DaemonState)
    (room : String) (writeOk : Bool) :
    (room ∉ (LeaveRoom cs room writeOk).1.rooms
      ∧ (LeaveRoom cs room writeOk).2 = writeOk)
    ∧ (writeOk = false →
        (handleLeaveRoom d cs room writeOk).1 = d
        ∧ room ∉ (handleLeaveRoom d cs room writeOk).2.1.rooms
        ∧ (handleLeaveRoom d cs room writeOk).2.2 = 500)
    ∧ (writeOk = true →
        (handleLeaveRoom d cs room writeOk).1.joinedRooms =
          d.joinedRooms.filter (fun r => r ≠ room)
        ∧ room ∉ (handleLeaveRoom d cs room writeOk).2.1.rooms
        ∧ (handleLeaveRoom d cs room writeOk).2.2 = 200) := by
  have hnotmem : room ∉ (LeaveRoom cs room writeOk).1.rooms := by
    unfold LeaveRoom
    intro hmem
    have := List.of_mem_filter hmem
    simp at this
  refine ⟨⟨hnotmem, rfl⟩, ?_, ?_⟩
  · intro h
    subst h
    exact ⟨rfl, hnotmem, rfl⟩
  · intro h
    subst h
    exact ⟨rfl, hnotmem, rfl⟩

/-- **C10, witness.** Concrete failed and successful leaves: the client set
loses `"r1"` either way; the daemon set keeps `"r1"` on failure and drops
it on success. -/
theorem C10_leaveRoom_not_atomic_witness :
    ("r1" ∉ (LeaveRoom ⟨["r1", "r2"]⟩ "r1" false).1.rooms)
    ∧ (handleLeaveRoom ⟨["r1", "r2"]⟩ ⟨["r1", "r2"]⟩ "r1" false).1 = ⟨["r1", "r2"]⟩
    ∧ (handleLeaveRoom ⟨["r1", "r2"]⟩ ⟨["r1", "r2"]⟩ "r1" true).1.joinedRooms = ["r2"] :=
  ⟨(C10_leaveRoom_not_atomic ⟨["r1", "r2"]⟩ ⟨["r1", "r2"]⟩ "r1" false).1.1,
   ((C10_leaveRoom_not_atomic ⟨["r1", "r2"]⟩ ⟨["r1", "r2"]⟩ "r1" false).2.1 rfl).1,
   ((C10_leaveRoom_not_atomic ⟨["r1", "r2"]⟩ ⟨["r1", "r2"]⟩ "r1" true).2.2 rfl).1.trans
     (by decide)⟩

/-! ## Claim C8 — `LoadOrCreate` on an existing key file (keystore.go:29-44) -/

/-- btcutil base58 alphabet. -/
def b58Alphabet : List Char := "123456789ABCDEFGHJKLMNPQRSTUVWXYZabcdefghijkmnopqrstuvwxyz".data

def b58Index (c : Char) : Option Nat := b58Alphabet.indexOf? c

/-- The big-integer accumulation loop of btcutil `base58.Decode`; `none`
models the `return []byte("")` taken on an invalid character. -/
def b58Loop (acc : Nat) : List Char → Option Nat
  | [] => some acc
  | c :: rest =>
    match b58Index c with
    | none => none
    | some i => b58Loop (acc * 58 + i) rest

def natBytesAux : Nat → Nat → List Nat
  | 0, _ => []
  | fuel + 1, n => if n = 0 then [] else natBytesAux fuel (n / 256) ++ [n % 256]

/-- `big.Int.Bytes()`: big-endian bytes, empty for zero. -/
def natToBytesBE (n : Nat) : List Nat := natBytesAux (n + 1) n

def countLeadingOnes : List Char → Nat
  | '1' :: rest => 1 + countLeadingOnes rest
  | _ => 0

/-- btcutil `base58.Decode`: leading `'1'` characters become leading zero
bytes; an invalid character yields the empty slice. -/
def base58Decode (s : String) : List Nat :=
  match b58Loop 0 s.data with
  | none => []
  | some n => List.replicate (countLeadingOnes s.data) 0 ++ natToBytesBE n

/-- Outcome of `LoadOrCreate` on an existing file. -/
inductive KeystoreResult where
  | keys (pub priv : List Nat)
  | err
  | panic
deriving DecidableEq

/-- `LoadOrCreate` (keystore.go:29-44) when the file at `path` exists.
The `json.Unmarshal` into `storedKey` is abstracted by its result:
`none` models an unmarshal error (the code returns it), `some s` a
successful parse whose `private_key` field is `s` (the empty string when
the field is absent).  The subsequent code runs
`priv := ed25519.PrivateKey(base58.Decode(sk.PrivateKey))` and
`pub := priv.Public()`, where `Public()` evaluates `priv[32:]` — a Go
slice expression that panics when the decoded key is shorter than 32
bytes — and copies at most 32 of its bytes into a fresh 32-byte key. -/
def loadExistingKey (parsed : Option String) : KeystoreResult :=
  match parsed with
  | none => .err
  | some s =>
    let priv := base58Decode s
    if priv.length < 32 then .panic
    else .keys ((priv.drop 32 ++ List.replicate 32 0).take 32) priv

/-- **C8 (code bug).** The claim says `LoadOrCreate` returns an error —
rather than succeeding or crashing — whenever the stored private key has
the wrong length.  The code has no length check: a key file holding `{}`
(or any short key) parses successfully with an empty `private_key`, whose
base58 decoding is empty, and `priv.Public()` then panics evaluating
`priv[32:]`.  A 33-byte key (e.g. 33 `'1'` characters) even *succeeds*
silently with a garbage public key.  Only the parse-error path behaves as
claimed, and on a well-formed 64-byte key the public key is the stored
private key's second half, as claimed. -/
theorem C8_loadOrCreate_wrong_length_crashes :
    loadExistingKey (some "") = .panic
    ∧ loadExistingKey none = .err
    ∧ loadExistingKey (some "111111111111111111111111111111111") =
        .keys (List.replicate 32 0) (List.replicate 33 0)
    ∧ (∀ s : String, (base58Decode s).length = 64 →
        loadExistingKey (some s) =
          .keys ((base58Decode s).drop 32) (base58Decode s)) := by
  refine ⟨by decide, rfl, by decide, ?_⟩
  intro s hlen
  simp only [loadExistingKey]
  rw [if_neg (by omega)]
  have hdrop : (base58Decode s).drop 32 =
      ((base58Decode s).drop 32 ++ List.replicate 32 0).take 32 := by
    have hlen32 : ((base58Decode s).drop 32).length = 32 := by
      rw [List.length_drop, hlen]
    rw [List.take_append_of_le_length (by omega), List.take_of_length_le (by omega)]
  rw [← hdrop]

set_option maxRecDepth 4000 in
/-- **C8, witness (for the conditional conjunct).** A concrete 64-byte key:
the 64 `'1'` string decodes to 64 zero bytes; loading succeeds and the
public key is the second half. -/
theorem C8_loadOrCreate_wrong_length_crashes_witness :
    loadExistingKey (some "1111111111111111111111111111111111111111111111111111111111111111") =
      .keys (List.replicate 32 0) (List.replicate 64 0) :=
  (C8_loadOrCreate_wrong_length_crashes.2.2.2 _ (by decide)).trans (by decide)

/-! ## SHA-256 (Go `crypto/sha256`) and the PoW solver (client.go:467-493)

FIPS 180-4 SHA-256 over byte lists (bytes as `Nat < 256`), matching the
standard test vectors for `""`, `"abc"` and the 56-byte two-block input. -/

def mask32 (n : Nat) : Nat := n % 4294967296

def rotr32 (x k : Nat) : Nat := mask32 ((x >>> k) ||| (x <<< (32 - k)))

def shaK : List Nat :=
  [1116352408, 1899447441, 3049323471, 3921009573, 961987163,
   1508970993, 2453635748, 2870763221, 3624381080, 310598401,
   607225278, 1426881987, 1925078388, 2162078206, 2614888103,
   3248222580, 3835390401, 4022224774, 264347078, 604807628,
   770255983, 1249150122, 1555081692, 1996064986, 2554220882,
   2821834349, 2952996808, 3210313671, 3336571891, 3584528711,
   113926993, 338241895, 666307205, 773529912, 1294757372,
   1396182291, 1695183700, 1986661051, 2177026350, 2456956037,
   2730485921, 2820302411, 3259730800, 3345764771, 3516065817,
   3600352804, 4094571909, 275423344, 430227734, 506948616,
   659060556, 883997877, 958139571, 1322822218, 1537002063,
   1747873779, 1955562222, 2024104815, 2227730452, 2361852424,
   2428436474, 2756734187, 3204031479, 3329325298]

structure Sha8 where
  a : Nat
  b : Nat
  c : Nat
  d : Nat
  e : Nat
  f : Nat
  g : Nat
  h : Nat

def be64 (n : Nat) : List Nat :=
  [(n >>> 56) &&& 255, (n >>> 48) &&& 255, (n >>> 40) &&& 255, (n >>> 32) &&& 255,
   (n >>> 24) &&& 255, (n >>> 16) &&& 255, (n >>> 8) &&& 255, n &&& 255]

def shaPad (msg : List Nat) : List Nat :=
  msg ++ 0x80 :: List.replicate ((119 - msg.length % 64) % 64) 0 ++ be64 (msg.length * 8)

def toWords32 : List Nat → List Nat
  | b0 :: b1 :: b2 :: b3 :: rest =>
    ((b0 <<< 24) ||| (b1 <<< 16) ||| (b2 <<< 8) ||| b3) :: toWords32 rest
  | _ => []

def smallSigma0 (x : Nat) : Nat := (rotr32 x 7) ^^^ (rotr32 x 18) ^^^ (x >>> 3)
def smallSigma1 (x : Nat) : Nat := (rotr32 x 17) ^^^ (rotr32 x 19) ^^^ (x >>> 10)
def bigSigma0 (x : Nat) : Nat := (rotr32 x 2) ^^^ (rotr32 x 13) ^^^ (rotr32 x 22)
def bigSigma1 (x : Nat) : Nat := (rotr32 x 6) ^^^ (rotr32 x 11) ^^^ (rotr32 x 25)

def chV (x y z : Nat) : Nat := (x &&& y) ^^^ ((x ^^^ 4294967295) &&& z)
def majV (x y z : Nat) : Nat := (x &&& y) ^^^ (x &&& z) ^^^ (y &&& z)

def extendW : Nat → List Nat → List Nat
  | 0, w => w
  | k + 1, w =>
    let n := w.length
    let x := mask32 (smallSigma1 (w.getD (n - 2) 0) + w.getD (n - 7) 0 +
      smallSigma0 (w.getD (n - 15) 0) + w.getD (n - 16) 0)
    extendW k (w ++ [x])

def schedule (block : List Nat) : List Nat := extendW 48 (toWords32 block)

def roundStep (st : Sha8) (kw : Nat × Nat) : Sha8 :=
  let t1 := mask32 (st.h + bigSigma1 st.e + chV st.e st.f st.g + kw.1 + kw.2)
  let t2 := mask32 (bigSigma0 st.a + majV st.a st.b st.c)
  { a := mask32 (t1 + t2), b := st.a, c := st.b, d := st.c,
    e := mask32 (st.d + t1), f := st.e, g := st.f, h := st.g }

def compressBlock (st : Sha8) (block : List Nat) : Sha8 :=
  let r := (shaK.zip (schedule block)).foldl roundStep st
  { a := mask32 (st.a + r.a), b := mask32 (st.b + r.b), c := mask32 (st.c + r.c),
    d := mask32 (st.d + r.d), e := mask32 (st.e + r.e), f := mask32 (st.f + r.f),
    g := mask32 (st.g + r.g), h := mask32 (st.h + r.h) }

def shaInit : Sha8 :=
  ⟨1779033703, 3144134277, 1013904242, 2773480762,
   1359893119, 2600822924, 528734635, 1541459225⟩

def wordBytesBE (w : Nat) : List Nat :=
  [(w >>> 24) &&& 255, (w >>> 16) &&& 255, (w >>> 8) &&& 255, w &&& 255]

def digestBytes (st : Sha8) : List Nat :=
  wordBytesBE st.a ++ wordBytesBE st.b ++ wordBytesBE st.c ++ wordBytesBE st.d ++
  wordBytesBE st.e ++ wordBytesBE st.f ++ wordBytesBE st.g ++ wordBytesBE st.h

def chunksAux : Nat → List Nat → List (List Nat)
  | 0, _ => []
  | _ + 1, [] => []
  | fuel + 1, x :: rest => ((x :: rest).take 64) :: chunksAux fuel ((x :: rest).drop 64)

def chunks64 (l : List Nat) : List (List Nat) := chunksAux l.length l

/-- SHA-256 of a byte string (Go `sha256.New(); Write; Sum(nil)`). -/
def sha256 (msg : List Nat) : List Nat :=
  digestBytes ((chunks64 (shaPad msg)).foldl compressBlock shaInit)

/-- UTF-8 encoding of one character (Go `[]byte(s)` on valid strings). -/
def utf8Char (c : Char) : List Nat :=
  let n := c.toNat
  if n < 0x80 then [n]
  else if n < 0x800 then [0xC0 ||| (n >>> 6), 0x80 ||| (n &&& 0x3F)]
  else if n < 0x10000 then
    [0xE0 ||| (n >>> 12), 0x80 ||| ((n >>> 6) &&& 0x3F), 0x80 ||| (n &&& 0x3F)]
  else
    [0xF0 ||| (n >>> 18), 0x80 ||| ((n >>> 12) &&& 0x3F),
     0x80 ||| ((n >>> 6) &&& 0x3F), 0x80 ||| (n &&& 0x3F)]

def utf8Bytes (s : String) : List Nat := (s.data.map utf8Char).flatten

example : sha256 (utf8Bytes "abc") =
    [0xba, 0x78, 0x16, 0xbf, 0x8f, 0x01, 0xcf, 0xea, 0x41, 0x41, 0x40, 0xde, 0x5d, 0xae,
     0x22, 0x23, 0xb0, 0x03, 0x61, 0xa3, 0x96, 0x17, 0x7a, 0x9c, 0xb4, 0x10, 0xff, 0x61,
     0xf2, 0x00, 0x15, 0xad] := by decide

theorem sha256_length (msg : List Nat) : (sha256 msg).length = 32 := by
  unfold sha256 digestBytes wordBytesBE
  simp

deriving instance DecidableEq for Except

/-- The bit-test loop of `verifyPoW` (client.go:485-491): for each
`i < difficulty` read `hash[i/8]` — a panic (`.error ()`) when the index
passes the end of the 32-byte digest — and fail (`.ok false`) as soon as
bit `7 - i%8` is set. -/
def powBitsCheck (hash : List Nat) : Nat → Nat → Except Unit Bool
  | 0, _ => .ok true
  | k + 1, i =>
    match hash.get? (i / 8) with
    | none => .error ()
    | some b => if b &&& (1 <<< (7 - i % 8)) ≠ 0 then .ok false else powBitsCheck hash k (i + 1)

/-- `verifyPoW` (client.go:479-493): SHA-256 over
`utf8(challenge) ∥ utf8(proof)`, then the difficulty bit test.  A negative
difficulty runs zero iterations (Go `for i := 0; i < difficulty`). -/
def verifyPoW (challenge proof : String) (difficulty : Int) : Except Unit Bool :=
  powBitsCheck (sha256 (utf8Bytes challenge ++ utf8Bytes proof)) difficulty.toNat 0

/-- The nonce loop of `solvePoW` (client.go:467-477), with the unbounded
`for` loop indexed by fuel: `.ok none` models fuel exhaustion (the loop
still running), `.ok (some p)` a returned proof, `.error ()` a panic inside
`verifyPoW`. -/
def solvePoWAux (challenge : String) (difficulty : Int) :
    Nat → Nat → Except Unit (Option String)
  | 0, _ => .ok none
  | fuel + 1, nonce =>
    match verifyPoW challenge ⟨natDecimal nonce⟩ difficulty with
    | .error e => .error e
    | .ok true => .ok (some ⟨natDecimal nonce⟩)
    | .ok false => solvePoWAux challenge difficulty fuel (nonce + 1)

/-- `solvePoW(challenge, difficulty)` terminates (returns a proof). -/
def SolveTerminates (challenge : String) (difficulty : Int) : Prop :=
  ∃ fuel p, solvePoWAux challenge difficulty fuel 0 = .ok (some p)

/-- The claim's bit test: the top `d` bits of the digest (bit 0 = MSB of
byte 0, continuing into byte 1, …) are all zero — which requires each read
to stay inside the 32-byte digest. -/
def PowOK (challenge proof : String) (d : Nat) : Prop :=
  ∀ i < d, i / 8 < 32 ∧
    ((sha256 (utf8Bytes challenge ++ utf8Bytes proof)).getD (i / 8) 0) &&&
      (1 <<< (7 - i % 8)) = 0

theorem powBitsCheck_ok_true (hash : List Nat) : ∀ k i,
    powBitsCheck hash k i = .ok true ↔
      ∀ j < k, (i + j) / 8 < hash.length ∧
        (hash.getD ((i + j) / 8) 0) &&& (1 <<< (7 - (i + j) % 8)) = 0 := by
  intro k
  induction k with
  | zero => intro i; simp [powBitsCheck]
  | succ k ih =>
    intro i
    rw [powBitsCheck]
    cases hget : hash.get? (i / 8) with
    | none =>
      constructor
      · intro h; cases h
      · intro hR
        have h0 := (hR 0 (by omega)).1
        rw [Nat.add_zero] at h0
        have hlen := List.get?_eq_none.mp hget
        omega
    | some b =>
      show (if b &&& (1 <<< (7 - i % 8)) ≠ 0 then (Except.ok false : Except Unit Bool)
          else powBitsCheck hash k (i + 1)) = .ok true ↔
        ∀ j < k + 1, (i + j) / 8 < hash.length ∧
          (hash.getD ((i + j) / 8) 0) &&& (1 <<< (7 - (i + j) % 8)) = 0
      by_cases hbit : b &&& (1 <<< (7 - i % 8)) ≠ 0
      · rw [if_pos hbit]
        constructor
        · intro h; cases h
        · intro hR
          have h0 := (hR 0 (by omega)).2
          rw [Nat.add_zero] at h0
          rw [List.getD_eq_get?, hget] at h0
          exact absurd h0 hbit
      · rw [if_neg hbit]
        rw [ih (i + 1)]
        push_neg at hbit
        constructor
        · intro hrec j hj
          cases j with
          | zero =>
            refine ⟨?_, ?_⟩
            · rw [Nat.add_zero]
              rcases List.get?_eq_some.mp hget with ⟨hlt, _⟩
              exact hlt
            · rw [Nat.add_zero, List.getD_eq_get?, hget]
              exact hbit
          | succ j' =>
            have hj' : j' < k := by omega
            have heq : i + (j' + 1) = i + 1 + j' := by omega
            rw [heq]
            exact hrec j' hj'
        · intro hR j hj
          have heq : i + 1 + j = i + (j + 1) := by omega
          rw [heq]
          exact hR (j + 1) (by omega)

theorem verifyPoW_ok_true_iff (challenge proof : String) (d : Int) :
    verifyPoW challenge proof d = .ok true ↔ PowOK challenge proof d.toNat := by
  unfold verifyPoW PowOK
  rw [powBitsCheck_ok_true]
  rw [sha256_length]
  simp only [Nat.zero_add]

theorem verifyPoW_never_true_of_big (challenge proof : String) (d : Int)
    (hd : (257 : Int) ≤ d) : verifyPoW challenge proof d ≠ .ok true := by
  intro h
  rw [verifyPoW_ok_true_iff] at h
  have h256 := (h 256 (by omega)).1
  omega

theorem powBitsCheck_no_error (hash : List Nat) (hlen : hash.length = 32) :
    ∀ k i, i + k ≤ 256 → ∃ b, powBitsCheck hash k i = .ok b := by
  intro k
  induction k with
  | zero => intro i _; exact ⟨true, rfl⟩
  | succ k ih =>
    intro i hik
    rw [powBitsCheck]
    have hidx : i / 8 < hash.length := by omega
    rcases hv : hash.get? (i / 8) with _ | b
    · rw [List.get?_eq_none] at hv
      omega
    · show ∃ b', (if b &&& (1 <<< (7 - i % 8)) ≠ 0 then (Except.ok false : Except Unit Bool)
          else powBitsCheck hash k (i + 1)) = .ok b'
      by_cases hbit : b &&& (1 <<< (7 - i % 8)) ≠ 0
      · rw [if_pos hbit]
        exact ⟨false, rfl⟩
      · rw [if_neg hbit]
        exact ih (i + 1) (by omega)

theorem verifyPoW_ok (challenge proof : String) (d : Int) (hd : d.toNat ≤ 256) :
    ∃ b, verifyPoW challenge proof d = .ok b := by
  unfold verifyPoW
  exact powBitsCheck_no_error _ (sha256_length _) d.toNat 0 (by omega)

theorem solvePoWAux_ok (challenge : String) (d : Int) :
    ∀ (fuel start : Nat) (p : String),
    solvePoWAux challenge d fuel start = .ok (some p) →
    ∃ n, start ≤ n ∧ p = ⟨natDecimal n⟩ ∧
      verifyPoW challenge ⟨natDecimal n⟩ d = .ok true ∧
      ∀ m, start ≤ m → m < n → verifyPoW challenge ⟨natDecimal m⟩ d = .ok false := by
  intro fuel
  induction fuel with
  | zero =>
    intro start p h
    cases h
  | succ fuel ih =>
    intro start p h
    rw [solvePoWAux] at h
    cases hv : verifyPoW challenge ⟨natDecimal start⟩ d with
    | error e => rw [hv] at h; cases h
    | ok b =>
      cases b with
      | true =>
        rw [hv] at h
        have hp : p = ⟨natDecimal start⟩ := by
          cases h
          rfl
        exact ⟨start, le_refl _, hp, hv, fun m h1 h2 => absurd (Nat.lt_of_le_of_lt h1 h2)
          (by omega)⟩
      | false =>
        rw [hv] at h
        obtain ⟨n, hn1, hn2, hn3, hn4⟩ := ih (start + 1) p h
        refine ⟨n, by omega, hn2, hn3, ?_⟩
        intro m h1 h2
        rcases Nat.eq_or_lt_of_le h1 with rfl | h1'
        · exact hv
        · exact hn4 m (by omega) h2

theorem solvePoWAux_succeeds (challenge : String) (d : Int) (hd : d.toNat ≤ 256) :
    ∀ (fuel start : Nat),
    (∃ n, start ≤ n ∧ n < start + fuel ∧
      verifyPoW challenge ⟨natDecimal n⟩ d = .ok true) →
    ∃ p, solvePoWAux challenge d fuel start = .ok (some p) := by
  intro fuel
  induction fuel with
  | zero =>
    intro start ⟨n, h1, h2, _⟩
    omega
  | succ fuel ih =>
    intro start ⟨n, h1, h2, h3⟩
    rw [solvePoWAux]
    obtain ⟨b, hb⟩ := verifyPoW_ok challenge ⟨natDecimal start⟩ d hd
    cases b with
    | true =>
      rw [hb]
      exact ⟨⟨natDecimal start⟩, rfl⟩
    | false =>
      rw [hb]
      apply ih (start + 1)
      refine ⟨n, ?_, by omega, h3⟩
      rcases Nat.eq_or_lt_of_le h1 with rfl | h1'
      · rw [h3] at hb
        cases hb
      · omega

/-- **C4.** PoW correctness: `Verify` returns true exactly when the top
`difficulty` bits of `SHA-256(utf8(challenge) ∥ utf8(proof))` are all zero
(bit 0 = MSB of byte 0, continuing into byte 1, …, necessarily inside the
32-byte digest); whenever `Solve` returns a proof it is the decimal
representation of the least such nonce; `Solve` is deterministic (any two
successful runs, with any fuel, return the same proof); and
`Solve(challenge, 0)` returns `"0"` for every challenge. -/
theorem C4_pow_correct :
    (∀ (challenge proof : String) (d : Int),
        verifyPoW challenge proof d = .ok true ↔ PowOK challenge proof d.toNat)
    ∧ (∀ (challenge : String) (d : Int) (fuel : Nat) (p : String),
        solvePoWAux challenge d fuel 0 = .ok (some p) →
        ∃ n, p = ⟨natDecimal n⟩ ∧
          verifyPoW challenge ⟨natDecimal n⟩ d = .ok true ∧
          ∀ m < n, verifyPoW challenge ⟨natDecimal m⟩ d = .ok false)
    ∧ (∀ (challenge : String) (d : Int) (fuel1 fuel2 : Nat) (p1 p2 : String),
        solvePoWAux challenge d fuel1 0 = .ok (some p1) →
        solvePoWAux challenge d fuel2 0 = .ok (some p2) → p1 = p2)
    ∧ (∀ (challenge : String) (fuel : Nat), 1 ≤ fuel →
        solvePoWAux challenge 0 fuel 0 = .ok (some "0")) := by
  have hmin : ∀ (challenge : String) (d : Int) (fuel : Nat) (p : String),
      solvePoWAux challenge d fuel 0 = .ok (some p) →
      ∃ n, p = ⟨natDecimal n⟩ ∧
        verifyPoW challenge ⟨natDecimal n⟩ d = .ok true ∧
        ∀ m < n, verifyPoW challenge ⟨natDecimal m⟩ d = .ok false := by
    intro challenge d fuel p h
    obtain ⟨n, _, hp, hv, hmin⟩ := solvePoWAux_ok challenge d fuel 0 p h
    exact ⟨n, hp, hv, fun m hm => hmin m (by omega) hm⟩
  refine ⟨fun challenge proof d => verifyPoW_ok_true_iff challenge proof d, hmin, ?_, ?_⟩
  · intro challenge d fuel1 fuel2 p1 p2 h1 h2
    obtain ⟨n1, hp1, hv1, hm1⟩ := hmin challenge d fuel1 p1 h1
    obtain ⟨n2, hp2, hv2, hm2⟩ := hmin challenge d fuel2 p2 h2
    have : n1 = n2 := by
      rcases Nat.lt_trichotomy n1 n2 with h | h | h
      · rw [hm2 n1 h] at hv1
        cases hv1
      · exact h
      · rw [hm1 n2 h] at hv2
        cases hv2
    rw [hp1, hp2, this]
  · intro challenge fuel hfuel
    obtain ⟨f, rfl⟩ : ∃ f, fuel = f + 1 := ⟨fuel - 1, by omega⟩
    have hv : verifyPoW challenge ⟨natDecimal 0⟩ (0 : Int) = .ok true := rfl
    show (match verifyPoW challenge ⟨natDecimal 0⟩ (0 : Int) with
      | .error e => (Except.error e : Except Unit (Option String))
      | .ok true => .ok (some ⟨natDecimal 0⟩)
      | .ok false => solvePoWAux challenge 0 f 1) = .ok (some "0")
    rw [hv]
    show Except.ok (some (⟨natDecimal 0⟩ : String)) = Except.ok (some "0")
    decide

/-- **C4, witness.** Concrete instance: for challenge `"33"` at
difficulty 4, nonce 1 is the least passing nonce — `Solve` (with fuel 2)
returns `"1"`, `Verify` accepts it, and the spec bit test holds; at
difficulty 0, `Solve` returns `"0"`. -/
theorem C4_pow_correct_witness :
    PowOK "33" "1" (Int.toNat 4)
    ∧ (∃ n, ("1" : String) = ⟨natDecimal n⟩ ∧
        verifyPoW "33" ⟨natDecimal n⟩ 4 = .ok true ∧
        ∀ m < n, verifyPoW "33" ⟨natDecimal m⟩ 4 = .ok false)
    ∧ solvePoWAux "test" 0 1 0 = .ok (some "0") :=
  ⟨(C4_pow_correct.1 "33" "1" 4).mp (by decide),
   C4_pow_correct.2.1 "33" 4 2 "1" (by decide),
   C4_pow_correct.2.2.2 "test" 1 (by omega)⟩

/-- **C5, counterexample.** A difficulty the relay can send for which the
solver's loop never returns: at difficulty 257 the bit test reads past the
32-byte digest and can never return true, so no fuel bound suffices —
`Solve("test", 257)` never produces a proof. -/
theorem C5_solve_diverges_at_257 : ¬ SolveTerminates "test" 257 := by
  intro ⟨fuel, p, h⟩
  obtain ⟨n, _, _, hver, _⟩ := solvePoWAux_ok "test" 257 fuel 0 p h
  exact verifyPoW_never_true_of_big "test" _ 257 (by omega) hver

/-- **C5 (amended).** `Solve(challenge, difficulty)` terminates for every
difficulty `≤ 0` (immediately, with proof `"0"`), and for every difficulty
for which some nonce passes the bit test (in particular whenever a passing
nonce exists, which for `1 ≤ difficulty ≤ 256` is a cryptographic property
of SHA-256 outside this development); for every difficulty `≥ 257` the bit
test reads past the 32-byte digest and can never pass, so `Solve` never
returns — there *are* difficulty values for which the loop runs forever. -/
theorem C5_solve_termination :
    (∀ (challenge : String) (d : Int), d ≤ 0 → SolveTerminates challenge d)
    ∧ (∀ (challenge : String) (d : Int) (n : Nat),
        verifyPoW challenge ⟨natDecimal n⟩ d = .ok true → SolveTerminates challenge d)
    ∧ (∀ (challenge : String) (d : Int), 257 ≤ d → ¬ SolveTerminates challenge d) := by
  refine ⟨?_, ?_, ?_⟩
  · intro ch d hd
    refine ⟨1, ⟨natDecimal 0⟩, ?_⟩
    have hv : verifyPoW ch ⟨natDecimal 0⟩ d = .ok true := by
      unfold verifyPoW
      rw [Int.toNat_of_nonpos hd]
      rfl
    show (match verifyPoW ch ⟨natDecimal 0⟩ d with
      | .error e => (Except.error e : Except Unit (Option String))
      | .ok true => .ok (some ⟨natDecimal 0⟩)
      | .ok false => solvePoWAux ch d 0 1) = .ok (some ⟨natDecimal 0⟩)
    rw [hv]
  · intro ch d n hv
    have hd : d.toNat ≤ 256 := by
      by_contra hbig
      exact verifyPoW_never_true_of_big ch _ d (by omega) hv
    obtain ⟨p, hp⟩ := solvePoWAux_succeeds ch d hd (n + 1) 0 ⟨n, by omega, by omega, hv⟩
    exact ⟨n + 1, p, hp⟩
  · intro ch d hd hterm
    obtain ⟨fuel, p, h⟩ := hterm
    obtain ⟨n, _, _, hver, _⟩ := solvePoWAux_ok ch d fuel 0 p h
    exact verifyPoW_never_true_of_big ch _ d hd hver

/-- **C5, witness.** The amended theorem at concrete inputs: `Solve`
terminates for difficulty 0 on `"test"` and for difficulty 4 on `"33"`
(nonce 1 passes the bit test). -/
theorem C5_solve_termination_witness :
    SolveTerminates "test" 0 ∧ SolveTerminates "33" 4 :=
  ⟨C5_solve_termination.1 "test" 0 (by decide),
   C5_solve_termination.2.1 "33" 4 1 (by decide)⟩
